import Mathlib

/-!
Formal model of the `edh-anti-meta` pipeline (a Python script that finds the
least-popular EDHREC commanders).  The functions below are shallow embeddings
of the corresponding Python functions, keeping their names.  Machine integers
are modelled by `Int`/`Nat` (Python integers are unbounded, so no wrap-around
is needed); Python `Optional` values are `Option`; code that catches
exceptions is modelled by total functions over an explicit outcome type.
Character classes of the regular expressions (digits, whitespace) are modelled
by their ASCII meaning.
-/

namespace EdhAntiMeta

/-! ## Data model

A Scryfall card is a JSON dictionary; the script only ever reads the fields
below via `card.get(...)`, each of which may be absent (`None`). -/

/-- Model of a Scryfall card dictionary: exactly the fields the script reads,
each optional, mirroring `card.get("...")` returning `None` when absent. -/
structure Card where
  name : Option String := none
  type_line : Option String := none
  oracle_id : Option String := none
  id : Option String := none
  oracle_text : Option String := none
  set_type : Option String := none
  released_at : Option String := none
  set : Option String := none
  set_name : Option String := none
  prints_search_uri : Option String := none
deriving DecidableEq

/-- Model of the `Commander` dataclass. -/
structure Commander where
  name : String
  edhrec_route_url : String
deriving DecidableEq

/-- Model of the `Result` dataclass: outcome of one EDHREC metric fetch. -/
structure Result where
  name : String
  edhrec_url : String
  decks : Option Int
  error : Option String := none
deriving DecidableEq

/-! ## Python string helpers -/

/-- Python `s.lower()`, modelled over the underlying character list
(ASCII case mapping). -/
def pyLower (s : String) : String := String.mk (s.data.map Char.toLower)

/-- Python `o or ""` for an optional string field (both `None` and the empty
string are falsy, and both map to `""`). -/
def getOrEmpty (o : Option String) : String := o.getD ""

/-- Python `needle in hay` substring test. -/
def strContains (hay needle : String) : Bool :=
  hay.data.tails.any (fun t => needle.data.isPrefixOf t)

/-- Python `a or b` on two optional strings: `a` when it is truthy (present
and non-empty), otherwise `b` as-is. -/
def pyOr (a b : Option String) : Option String :=
  match a with
  | some s => if s.isEmpty then b else some s
  | none => b

/-! ## Deduplication (`is_commander_face`, `commander_key`,
`collapse_by_oracle`) -/

/-- `is_commander_face`: the structural shape check — the type line must
contain both `"Legendary"` and `"Creature"` (case-sensitive, as in the
source). -/
def is_commander_face (card : Card) : Bool :=
  strContains (getOrEmpty card.type_line) "Legendary" &&
  strContains (getOrEmpty card.type_line) "Creature"

/-- `commander_key`: `card.get("oracle_id") or card.get("id")` — the canonical
key, falling back to the raw record id when the oracle id is absent or
empty. -/
def commander_key (card : Card) : Option String :=
  pyOr card.oracle_id card.id

/-- One step of the `collapse_by_oracle` loop body: skip non-commander faces,
then insert into the insertion-ordered key map only when the key is new
(Python dicts preserve insertion order, modelled as an association list). -/
def collapseStep (acc : List (Option String × Card)) (c : Card) :
    List (Option String × Card) :=
  if is_commander_face c then
    if acc.any (fun p => decide (p.1 = commander_key c)) then acc
    else acc ++ [(commander_key c, c)]
  else acc

/-- `collapse_by_oracle`: fold the catalog through the dedup loop and return
the dictionary values in insertion order. -/
def collapse_by_oracle (cards : List Card) : List Card :=
  (cards.foldl collapseStep []).map (fun p => p.2)

/-! ## Recency predicate (`is_recent`) -/

/-- Split a character list at every dash, like `"-"`-separated fields of
`%Y-%m-%d`. -/
def splitDash : List Char → List (List Char)
  | [] => [[]]
  | c :: rest =>
    match splitDash rest with
    | [] => if c = '-' then [[], []] else [[c]]
    | g :: gs => if c = '-' then [] :: g :: gs else (c :: g) :: gs

/-- Numeric value of a digit string (most significant first). -/
def digitsVal (cs : List Char) : Nat :=
  cs.foldl (fun n c => n * 10 + (c.toNat - 48)) 0

/-- Gregorian leap-year test, as in Python `datetime`. -/
def isLeap (y : Nat) : Bool :=
  y % 4 = 0 && (y % 100 ≠ 0 || y % 400 = 0)

/-- Days in a month of the proleptic Gregorian calendar. -/
def daysInMonth (y m : Nat) : Nat :=
  if m = 2 then (if isLeap y then 29 else 28)
  else if m = 4 ∨ m = 6 ∨ m = 9 ∨ m = 11 then 30
  else 31

/-- Model of `datetime.strptime(ra, "%Y-%m-%d").date()`: a 4-digit year,
a 1-2 digit month, a 1-2 digit day, dash-separated with nothing left over,
validated as a real proleptic Gregorian date (year at least 1, Python
MINYEAR).  Returns `none` exactly when `strptime`/`datetime` raises. -/
def strptimeYMD (s : String) : Option (Nat × Nat × Nat) :=
  match splitDash s.data with
  | [ys, ms, ds] =>
    if ys.length = 4 && ys.all Char.isDigit
        && (ms.length = 1 || ms.length = 2) && ms.all Char.isDigit
        && (ds.length = 1 || ds.length = 2) && ds.all Char.isDigit then
      let y := digitsVal ys
      let m := digitsVal ms
      let d := digitsVal ds
      if 1 ≤ y && 1 ≤ m && m ≤ 12 && 1 ≤ d && d ≤ daysInMonth y m then
        some (y, m, d)
      else none
    else none
  | _ => none

/-- Days strictly before January 1 of year `y` (Python
`date.toordinal` arithmetic). -/
def daysBeforeYear (y : Nat) : Nat :=
  let n := y - 1
  n * 365 + n / 4 + n / 400 - n / 100

/-- Days in year `y` strictly before month `m`. -/
def daysBeforeMonth (y m : Nat) : Nat :=
  ((List.range (m - 1)).map (fun i => daysInMonth y (i + 1))).sum

/-- Python `date(y, m, d).toordinal()`: day count with 0001-01-01 as day 1. -/
def dateOrdinal (y m d : Nat) : Nat :=
  daysBeforeYear y + daysBeforeMonth y m + d

/-- `is_recent`: true when this printing's release date is within `days` of
today.  `today` is the ordinal of the current UTC date, passed explicitly
(the Python code reads the clock).  Mirrors the source exactly: a
non-positive window returns `False` at once; a missing or empty
`released_at` returns `False`; a `strptime` failure is caught and returns
`False`; otherwise compare the day difference with the window. -/
def is_recent (card : Card) (days : Int) (today : Int) : Bool :=
  if days ≤ 0 then false
  else
    match card.released_at with
    | none => false
    | some ra =>
      if ra.isEmpty then false
      else
        match strptimeYMD ra with
        | none => false
        | some (y, m, d) => decide (today - (dateOrdinal y m d : Int) ≤ days)

/-! ## PTK detection (`looks_like_ptk_fast`, `is_ptk_strict`) -/

/-- `looks_like_ptk_fast`: cheap heuristic — the representative printing's set
code is `"ptk"` or its set name contains `"portal three kingdoms"`. -/
def looks_like_ptk_fast (card : Card) : Bool :=
  pyLower (getOrEmpty card.set) == "ptk" ||
  strContains (pyLower (getOrEmpty card.set_name)) "portal three kingdoms"

/-- Does one printing on a page have set code `"ptk"`? -/
def printingIsPtk (p : Card) : Bool :=
  pyLower (getOrEmpty p.set) == "ptk"

/-- Outcome of one page fetch inside `is_ptk_strict`: either a page with its
printings and the optional `next_page` URL, or a raised transport/parse
exception with its message.  A trace (list of these) models the sequence of
responses the network gives to the successive requests of the walk. -/
inductive PageStep where
  | page (cards : List Card) (next : Option String)
  | err (msg : String)
deriving DecidableEq

/-- The `while uri:` loop of `is_ptk_strict`, consuming one trace element per
page request.  Returns `some true` when a `"ptk"` printing is found,
`some false` when the pages run out (`next_page` absent), and the fast
heuristic's verdict when a fetch raises.  Returns `none` when the trace does
not cover all the requests the walk makes (the model has no answer there). -/
def strictPages (card : Card) : List PageStep → Option Bool
  | [] => none
  | PageStep.err _ :: _ => some (looks_like_ptk_fast card)
  | PageStep.page cards next :: rest =>
    if cards.any printingIsPtk then some true
    else
      match next with
      | none => some false
      | some _ => strictPages card rest

/-- `is_ptk_strict`: when the card has no `prints_search_uri`, fall back to
the fast heuristic at once; otherwise walk the printings pages. -/
def is_ptk_strict (card : Card) (trace : List PageStep) : Option Bool :=
  match card.prints_search_uri with
  | none => some (looks_like_ptk_fast card)
  | some _ => strictPages card trace

/-! ## Metric extraction and fetch (`extract_deck_count`,
`fetch_deck_count`) -/

/-- Character class `[\d,]` of the deck-count pattern. -/
def isDigitOrComma (c : Char) : Bool := c.isDigit || c = ','

/-- Try the pattern `(\d[\d,]*)\s+decks` (case-insensitive unit word) at the
head of the character list; return group 1 on success.  The adjacent
character classes are disjoint, so the greedy match is the only one. -/
def matchDecksAt : List Char → Option (List Char)
  | [] => none
  | c :: rest =>
    if c.isDigit then
      let grp := rest.takeWhile isDigitOrComma
      let after := rest.dropWhile isDigitOrComma
      let ws := after.takeWhile Char.isWhitespace
      let tl := after.dropWhile Char.isWhitespace
      if 0 < ws.length && "decks".data.isPrefixOf (tl.map Char.toLower) then
        some (c :: grp)
      else none
    else none

/-- `DECKS_RE.search`: leftmost match of the deck-count pattern, returning
group 1. -/
def searchDecks : List Char → Option (List Char)
  | [] => none
  | c :: rest =>
    match matchDecksAt (c :: rest) with
    | some g => some g
    | none => searchDecks rest

/-- `extract_deck_count`: first match of `(\d[\d,]*)\s+decks` in the page,
commas stripped, parsed as an integer; `None` when the pattern does not
match. -/
def extract_deck_count (html : String) : Option Int :=
  (searchDecks html.data).map
    (fun g => Int.ofNat (digitsVal (g.filter (fun c => !(c = ',')))))

/-- Outcome of the single HTTP request inside `fetch_deck_count`: success
carries the final URL after redirects and the body; failure carries the
exception text. -/
inductive FetchOutcome where
  | success (finalUrl : String) (html : String)
  | failure (msg : String)
deriving DecidableEq

/-- `fetch_deck_count`: on success build a `Result` from the final URL and the
extracted count; any exception is caught and folded into the `Result` error
field with the original route URL (the function is total — no exception
escapes). -/
def fetch_deck_count (cmdr : Commander) (outcome : FetchOutcome) : Result :=
  match outcome with
  | FetchOutcome.success finalUrl html =>
    { name := cmdr.name, edhrec_url := finalUrl,
      decks := extract_deck_count html, error := none }
  | FetchOutcome.failure msg =>
    { name := cmdr.name, edhrec_url := cmdr.edhrec_route_url,
      decks := none, error := some msg }

/-! ## Configuration and the two concurrency pools -/

/-- The configuration fields of `args` that the modelled core reads.  There is
a single `concurrency` value (the `--concurrency` flag). -/
structure Args where
  bottom_k : Nat
  concurrency : Int
  only_positive : Bool
  include_errors : Bool
deriving DecidableEq

/-- The `concurrency=` argument `main_async` passes to `apply_filters_async`:
`max(2, args.concurrency // 2)` (Python floor division). -/
def filterConcurrencyArg (a : Args) : Int :=
  max 2 (Int.fdiv a.concurrency 2)

/-- Size of the semaphore created inside `apply_filters_async` for strict PTK
verification: `asyncio.Semaphore(max(2, concurrency))`. -/
def verifySemSize (a : Args) : Int :=
  max 2 (filterConcurrencyArg a)

/-- Size of the semaphore created in `main_async` for the EDHREC metric
fetches: `asyncio.Semaphore(args.concurrency)`. -/
def metricSemSize (a : Args) : Int :=
  a.concurrency

/-! ## Bottom-K selector

The Python loop keeps a `heapq` min-heap of tuples `(-val, seq, res)`; the
`seq` numbers are pairwise distinct, so the tuple comparison never reaches
`res` and the heap orders entries by the lexicographic key `(-val, seq)`.
We model the heap by its contents kept as a list sorted in descending key
order: `heapq.heappush` is ordered insertion and `heapq.heappop` (which
removes the minimum key) removes the last element. -/

/-- A heap entry: the key `(-val, seq)` together with the fetched result. -/
abbrev HeapEntry := (Int × Nat) × Result

/-- Lexicographic order on heap keys `(-val, seq)` — the order `heapq` uses on
the tuples. -/
def keyLe (p q : Int × Nat) : Prop :=
  p.1 < q.1 ∨ (p.1 = q.1 ∧ p.2 ≤ q.2)

instance (p q : Int × Nat) : Decidable (keyLe p q) := by
  unfold keyLe; infer_instance

/-- Ordered insertion into a list sorted by descending key (the model of
`heapq.heappush`). -/
def insertDesc (e : HeapEntry) : List HeapEntry → List HeapEntry
  | [] => [e]
  | x :: xs => if keyLe x.1 e.1 then e :: x :: xs else x :: insertDesc e xs

/-- The `10**12` sentinel used for missing deck counts when errors are not
shown. -/
def big : Int := 10 ^ 12

/-- The rank value pushed for a result:
`res.decks if isinstance(res.decks, int) else (big if not include_errors
else 0)`. -/
def rankVal (include_errors : Bool) (decks : Option Int) : Int :=
  match decks with
  | some d => d
  | none => if include_errors then 0 else big

/-- The only-positive skip test:
`args.only_positive and isinstance(res.decks, int) and res.decks <= 0`. -/
def skipped (only_positive : Bool) (decks : Option Int) : Bool :=
  only_positive &&
    match decks with
    | some d => decide (d ≤ 0)
    | none => false

/-- Mutable state of the selector loop: the heap and the next sequence
number. -/
structure SelState where
  heap : List HeapEntry
  seq : Nat
deriving DecidableEq

/-- One iteration of the `for coro in asyncio.as_completed(tasks):` loop body
on one completed result: skip it when the only-positive test fires, otherwise
push `(-val, seq, res)` and pop the heap minimum when the size exceeds
`bottom_k`. -/
def selectStep (args : Args) (st : SelState) (res : Result) : SelState :=
  if skipped args.only_positive res.decks then st
  else
    let val := rankVal args.include_errors res.decks
    let h := insertDesc ((-val, st.seq), res) st.heap
    { heap := if args.bottom_k < h.length then h.dropLast else h,
      seq := st.seq + 1 }

/-- The whole selector loop over a completion-ordered stream of results. -/
def runSelector (args : Args) (rs : List Result) : SelState :=
  rs.foldl (selectStep args) ⟨[], 0⟩

/-- The results the loop admits into the heap (those the only-positive test
does not skip), in stream order. -/
def admittedResults (args : Args) (rs : List Result) : List Result :=
  rs.filter (fun r => !(skipped args.only_positive r.decks))

/-- The heap entries the stream generates, with sequence numbers from `s0`:
one entry per admitted result, keyed `(-val, seq)`. -/
def streamEntries (args : Args) : Nat → List Result → List HeapEntry
  | _, [] => []
  | s0, r :: rs =>
    if skipped args.only_positive r.decks then streamEntries args s0 rs
    else ((-(rankVal args.include_errors r.decks), s0), r) ::
      streamEntries args (s0 + 1) rs

/-- Insertion sort of heap entries into descending key order, folded from the
left (the order the stream arrives in). -/
def sortDesc (es : List HeapEntry) : List HeapEntry :=
  es.foldl (fun s e => insertDesc e s) []

/-- The rank value an entry was pushed with (`-` of the stored negated
key). -/
def entryVal (e : HeapEntry) : Int := -e.1.1

/-- Ordered insertion of an integer into an ascending list (for the spec-side
brute-force sort). -/
def insertAsc (a : Int) : List Int → List Int
  | [] => [a]
  | b :: bs => if a ≤ b then a :: b :: bs else b :: insertAsc a bs

/-- Brute-force ascending insertion sort of rank values — the full sort the
selector is verified against. -/
def sortAsc : List Int → List Int
  | [] => []
  | a :: l => insertAsc a (sortAsc l)

/-- Rank values retained by the selector at end of stream, read off the heap
in stored (ascending-value) order. -/
def heapVals (args : Args) (rs : List Result) : List Int :=
  (runSelector args rs).heap.map entryVal

/-- Rank values of all admitted results, in stream order. -/
def admittedVals (args : Args) (rs : List Result) : List Int :=
  (admittedResults args rs).map (fun r => rankVal args.include_errors r.decks)

end EdhAntiMeta

namespace EdhAntiMeta

/-- A page step of an `is_ptk_strict` walk that neither finds a `"ptk"`
printing nor ends the walk: a successful page, no `"ptk"` printing on it, and
a `next_page` URL present. -/
def benignPage : PageStep → Bool
  | PageStep.page cards next => !(cards.any printingIsPtk) && next.isSome
  | PageStep.err _ => false

/-! ## Sample values used by the witnesses -/

/-- Sample result with metric 5. -/
def wR1 : Result := { name := "one", edhrec_url := "u1", decks := some 5 }

/-- Sample result with metric 3. -/
def wR2 : Result := { name := "two", edhrec_url := "u2", decks := some 3 }

/-- Sample result with metric 0 (non-positive). -/
def wZero : Result := { name := "zero", edhrec_url := "u0", decks := some 0 }

/-- Sample result with metric 7. -/
def wPos : Result := { name := "pos", edhrec_url := "u7", decks := some 7 }

/-- Sample result with no metric (errored or unknown). -/
def wNone : Result :=
  { name := "gone", edhrec_url := "u?", decks := none, error := some "boom" }

/-- Sample configuration: bottom-1, errors excluded, zeros kept. -/
def wArgsA : Args :=
  { bottom_k := 1, concurrency := 8, only_positive := false,
    include_errors := false }

/-- Sample configuration: bottom-3, errors excluded, only-positive on. -/
def wArgsB : Args :=
  { bottom_k := 3, concurrency := 8, only_positive := true,
    include_errors := false }

/-- Sample stream containing a zero-metric result and a positive one. -/
def wStream : List Result := [wZero, wPos]

/-- Sample commander for the fetch witness. -/
def wCmdr : Commander := { name := "cmdr", edhrec_route_url := "route" }

/-- Sample card with a printings URL, not PTK by the fast heuristic. -/
def wCardStrict : Card :=
  { set := some "abc", set_name := some "some set",
    prints_search_uri := some "https://prints" }

/-- Sample non-PTK printing appearing on a page of the strict walk. -/
def wPrinting : Card := { set := some "xyz" }

/-- Sample benign page of a strict walk: one non-PTK printing and a next
page. -/
def wPage : PageStep := PageStep.page [wPrinting] (some "next")

/-- Sample commander-face catalog entry with oracle id `"o1"`. -/
def wFace : Card :=
  { name := some "first", type_line := some "Legendary Creature Human",
    oracle_id := some "o1" }

/-- Sample later catalog entry with the same oracle id `"o1"`. -/
def wFaceDup : Card :=
  { name := some "second", type_line := some "Legendary Creature Elf",
    oracle_id := some "o1" }

/-- Sample catalog entry failing the commander-face shape check. -/
def wNonFace : Card :=
  { name := some "spell", type_line := some "Instant",
    oracle_id := some "o2" }

/-- Sample catalog with a duplicate key and a non-face entry. -/
def wCatalog : List Card := [wFace, wFaceDup, wNonFace]

/-- Sample card with no release date. -/
def wCardNoDate : Card := { }

/-- Sample card whose release date does not parse. -/
def wCardBadDate : Card := { released_at := some "notadate" }

/-! ## Heap lemmas -/

theorem insertDesc_length (e : HeapEntry) (l : List HeapEntry) :
    (insertDesc e l).length = l.length + 1 := by
  induction l with
  | nil => rfl
  | cons x xs ih =>
    simp only [insertDesc]
    split
    · simp
    · simp [ih]

theorem insertDesc_perm (e : HeapEntry) (l : List HeapEntry) :
    List.Perm (insertDesc e l) (e :: l) := by
  induction l with
  | nil => exact List.Perm.refl _
  | cons x xs ih =>
    simp only [insertDesc]
    split
    · exact List.Perm.refl _
    · exact (ih.cons x).trans (List.Perm.swap e x xs)

theorem take_insertDesc (e : HeapEntry) :
    ∀ (l : List HeapEntry) (K : Nat),
      (insertDesc e (l.take K)).take K = (insertDesc e l).take K := by
  intro l
  induction l with
  | nil => intro K; simp
  | cons x xs ih =>
    intro K
    cases K with
    | zero => simp
    | succ k =>
      simp only [List.take_succ_cons, insertDesc]
      split
      · cases k with
        | zero => simp
        | succ k2 =>
          simp [List.take_succ_cons, List.take_take,
            Nat.min_eq_left (Nat.le_succ k2)]
      · simp only [List.take_succ_cons, ih]

theorem trim_eq_take (K : Nat) (l : List HeapEntry) (h : l.length ≤ K + 1) :
    (if K < l.length then l.dropLast else l) = l.take K := by
  split
  · have hlen : l.length = K + 1 := by omega
    rw [List.dropLast_eq_take, hlen]
    simp
  · have hlen : l.length ≤ K := by omega
    rw [List.take_of_length_le hlen]

end EdhAntiMeta

namespace EdhAntiMeta

/-! ## The selector fold invariant -/

theorem runFrom (args : Args) :
    ∀ (rs : List Result) (B : List HeapEntry) (s0 : Nat),
      rs.foldl (selectStep args) ⟨B.take args.bottom_k, s0⟩
      = ⟨(List.foldl (fun s e => insertDesc e s) B
            (streamEntries args s0 rs)).take args.bottom_k,
         s0 + (streamEntries args s0 rs).length⟩ := by
  intro rs
  induction rs with
  | nil => intro B s0; simp [streamEntries]
  | cons r rs ih =>
    intro B s0
    by_cases hs : skipped args.only_positive r.decks
    · simp only [List.foldl_cons, selectStep, hs, if_true, streamEntries]
      exact ih B s0
    · simp only [List.foldl_cons, selectStep, hs, if_false, streamEntries,
        Bool.false_eq_true]
      have hlen : (insertDesc ((-rankVal args.include_errors r.decks, s0), r)
          (B.take args.bottom_k)).length ≤ args.bottom_k + 1 := by
        rw [insertDesc_length]
        have := List.length_take_le args.bottom_k B
        omega
      rw [trim_eq_take _ _ hlen, take_insertDesc]
      rw [ih (insertDesc ((-rankVal args.include_errors r.decks, s0), r) B)
        (s0 + 1)]
      simp only [List.length_cons, List.foldl_cons]
      have hseq : s0 + 1 + (streamEntries args (s0 + 1) rs).length
          = s0 + ((streamEntries args (s0 + 1) rs).length + 1) := by omega
      rw [hseq]

theorem runSelector_eq (args : Args) (rs : List Result) :
    runSelector args rs
    = ⟨(sortDesc (streamEntries args 0 rs)).take args.bottom_k,
       (streamEntries args 0 rs).length⟩ := by
  have h := runFrom args rs [] 0
  simpa [runSelector, sortDesc] using h

/-! ## Stream-entry lemmas -/

theorem streamEntries_map_val (args : Args) :
    ∀ (rs : List Result) (s0 : Nat),
      (streamEntries args s0 rs).map entryVal = admittedVals args rs := by
  intro rs
  induction rs with
  | nil => intro s0; simp [streamEntries, admittedVals, admittedResults]
  | cons r rs ih =>
    intro s0
    by_cases hs : skipped args.only_positive r.decks
    · simp [streamEntries, hs, admittedVals, admittedResults, ih s0]
    · simp only [streamEntries, hs, Bool.false_eq_true, if_false,
        List.map_cons, entryVal, neg_neg]
      rw [ih (s0 + 1)]
      simp [admittedVals, admittedResults, hs]

theorem streamEntries_length (args : Args) (rs : List Result) (s0 : Nat) :
    (streamEntries args s0 rs).length = (admittedResults args rs).length := by
  have h := streamEntries_map_val args rs s0
  have h1 := congrArg List.length h
  simpa [admittedVals] using h1

theorem mem_streamEntries_not_skipped (args : Args) :
    ∀ (rs : List Result) (s0 : Nat) (e : HeapEntry),
      e ∈ streamEntries args s0 rs →
      skipped args.only_positive e.2.decks = false := by
  intro rs
  induction rs with
  | nil => intro s0 e h; simp [streamEntries] at h
  | cons r rs ih =>
    intro s0 e h
    by_cases hs : skipped args.only_positive r.decks
    · simp only [streamEntries, hs, if_true] at h
      exact ih s0 e h
    · simp only [streamEntries, hs, Bool.false_eq_true, if_false,
        List.mem_cons] at h
      rcases h with h | h
      · subst h
        simpa using hs
      · exact ih (s0 + 1) e h

/-! ## Sorting permutation lemmas -/

theorem foldl_insertDesc_perm :
    ∀ (es : List HeapEntry) (B : List HeapEntry),
      List.Perm (List.foldl (fun s e => insertDesc e s) B es) (B ++ es) := by
  intro es
  induction es with
  | nil => intro B; simp
  | cons e es ih =>
    intro B
    simp only [List.foldl_cons]
    refine ((ih (insertDesc e B)).trans ?_)
    refine (((insertDesc_perm e B).append_right es).trans ?_)
    exact List.perm_middle.symm

theorem sortDesc_perm (es : List HeapEntry) :
    List.Perm (sortDesc es) es := by
  simpa [sortDesc] using foldl_insertDesc_perm es []

end EdhAntiMeta

namespace EdhAntiMeta

/-! ## Sortedness lemmas -/

theorem keyLe_total (p q : Int × Nat) : keyLe p q ∨ keyLe q p := by
  unfold keyLe
  omega

theorem keyLe_trans {p q r : Int × Nat} (h1 : keyLe p q) (h2 : keyLe q r) :
    keyLe p r := by
  unfold keyLe at *
  omega

/-- The pairwise relation of a descending-key heap list: every later entry has
a key no greater than every earlier one. -/
def keyGeRel (a b : HeapEntry) : Prop := keyLe b.1 a.1

theorem pairwise_insertDesc (e : HeapEntry) (l : List HeapEntry)
    (hl : l.Pairwise keyGeRel) : (insertDesc e l).Pairwise keyGeRel := by
  induction l with
  | nil => simp [insertDesc, List.pairwise_cons]
  | cons x xs ih =>
    simp only [insertDesc]
    rcases List.pairwise_cons.mp hl with ⟨hx, hxs⟩
    split
    · rename_i hle
      refine List.pairwise_cons.mpr ⟨?_, hl⟩
      intro y hy
      rcases List.mem_cons.mp hy with h | h
      · subst h; exact hle
      · exact keyLe_trans (hx y h) hle
    · rename_i hnle
      refine List.pairwise_cons.mpr ⟨?_, ih hxs⟩
      intro y hy
      have hy2 := (insertDesc_perm e xs).mem_iff.mp hy
      rcases List.mem_cons.mp hy2 with h | h
      · rw [h]
        rcases keyLe_total x.1 e.1 with h1 | h1
        · exact absurd h1 hnle
        · exact h1
      · exact hx y h

theorem pairwise_foldl_insertDesc :
    ∀ (es : List HeapEntry) (B : List HeapEntry),
      B.Pairwise keyGeRel →
      (List.foldl (fun s e => insertDesc e s) B es).Pairwise keyGeRel := by
  intro es
  induction es with
  | nil => intro B hB; simpa using hB
  | cons e es ih =>
    intro B hB
    simp only [List.foldl_cons]
    exact ih (insertDesc e B) (pairwise_insertDesc e B hB)

theorem pairwise_sortDesc (es : List HeapEntry) :
    (sortDesc es).Pairwise keyGeRel :=
  pairwise_foldl_insertDesc es [] (List.Pairwise.nil)

theorem sortDesc_map_val_sorted (es : List HeapEntry) :
    ((sortDesc es).map entryVal).Pairwise (fun a b : Int => a ≤ b) := by
  refine (pairwise_sortDesc es).map entryVal ?_
  intro a b hab
  unfold keyGeRel keyLe at hab
  unfold entryVal
  omega

/-! ## The spec-side brute-force ascending sort -/

theorem insertAsc_perm (a : Int) (l : List Int) :
    List.Perm (insertAsc a l) (a :: l) := by
  induction l with
  | nil => exact List.Perm.refl _
  | cons b bs ih =>
    simp only [insertAsc]
    split
    · exact List.Perm.refl _
    · exact (ih.cons b).trans (List.Perm.swap a b bs)

theorem sortAsc_perm (l : List Int) : List.Perm (sortAsc l) l := by
  induction l with
  | nil => exact List.Perm.refl _
  | cons a l ih =>
    simp only [sortAsc]
    exact (insertAsc_perm a (sortAsc l)).trans (ih.cons a)

theorem pairwise_insertAsc (a : Int) (l : List Int)
    (hl : l.Pairwise (fun x y : Int => x ≤ y)) :
    (insertAsc a l).Pairwise (fun x y : Int => x ≤ y) := by
  induction l with
  | nil => simp [insertAsc]
  | cons b bs ih =>
    simp only [insertAsc]
    rcases List.pairwise_cons.mp hl with ⟨hb, hbs⟩
    split
    · rename_i hle
      refine List.pairwise_cons.mpr ⟨?_, hl⟩
      intro y hy
      rcases List.mem_cons.mp hy with h | h
      · subst h; exact hle
      · exact le_trans hle (hb y h)
    · rename_i hnle
      refine List.pairwise_cons.mpr ⟨?_, ih hbs⟩
      intro y hy
      have hy2 := (insertAsc_perm a bs).mem_iff.mp hy
      rcases List.mem_cons.mp hy2 with h | h
      · subst h; omega
      · exact hb y h

theorem pairwise_sortAsc (l : List Int) :
    (sortAsc l).Pairwise (fun x y : Int => x ≤ y) := by
  induction l with
  | nil => simp [sortAsc]
  | cons a l ih => exact pairwise_insertAsc a (sortAsc l) ih

/-- Two sorted (non-strictly ascending) integer lists that are permutations of
one another are equal. -/
theorem sorted_int_eq_of_perm {l1 l2 : List Int}
    (hp : List.Perm l1 l2)
    (h1 : l1.Pairwise (fun x y : Int => x ≤ y))
    (h2 : l2.Pairwise (fun x y : Int => x ≤ y)) : l1 = l2 :=
  List.eq_of_perm_of_sorted hp h1 h2

theorem sortAsc_eq_of_perm {l1 l2 : List Int} (hp : List.Perm l1 l2) :
    sortAsc l1 = sortAsc l2 :=
  sorted_int_eq_of_perm
    ((sortAsc_perm l1).trans (hp.trans (sortAsc_perm l2).symm))
    (pairwise_sortAsc l1) (pairwise_sortAsc l2)

end EdhAntiMeta

namespace EdhAntiMeta

/-! ## Selector characterisation -/

theorem heapVals_char (args : Args) (rs : List Result) :
    heapVals args rs = (sortAsc (admittedVals args rs)).take args.bottom_k := by
  unfold heapVals
  rw [runSelector_eq]
  simp only [List.map_take]
  have hperm : List.Perm ((sortDesc (streamEntries args 0 rs)).map entryVal)
      (admittedVals args rs) := by
    have h1 := (sortDesc_perm (streamEntries args 0 rs)).map entryVal
    rwa [streamEntries_map_val] at h1
  have heq : (sortDesc (streamEntries args 0 rs)).map entryVal
      = sortAsc (admittedVals args rs) :=
    sorted_int_eq_of_perm (hperm.trans (sortAsc_perm _).symm)
      (sortDesc_map_val_sorted _) (pairwise_sortAsc _)
  rw [heq]

theorem heapLen_char (args : Args) (rs : List Result) :
    (runSelector args rs).heap.length
    = min args.bottom_k (admittedResults args rs).length := by
  rw [runSelector_eq]
  simp only [List.length_take]
  rw [(sortDesc_perm (streamEntries args 0 rs)).length_eq,
    streamEntries_length]

end EdhAntiMeta

namespace EdhAntiMeta

/-! ## Deduplication invariant -/

theorem collapse_fold_faces :
    ∀ (cards : List Card) (acc : List (Option String × Card)),
      (∀ p ∈ acc, is_commander_face p.2 = true) →
      ∀ p ∈ cards.foldl collapseStep acc, is_commander_face p.2 = true := by
  intro cards
  induction cards with
  | nil => intro acc hacc; simpa using hacc
  | cons c cards ih =>
    intro acc hacc
    simp only [List.foldl_cons]
    refine ih (collapseStep acc c) ?_
    intro p hp
    unfold collapseStep at hp
    by_cases hface : is_commander_face c
    · simp only [hface, if_true] at hp
      split at hp
      · exact hacc p hp
      · rcases List.mem_append.mp hp with h | h
        · exact hacc p h
        · simp only [List.mem_singleton] at h
          rw [h]
          exact hface
    · simp only [hface, Bool.false_eq_true, if_false] at hp
      exact hacc p hp

theorem collapse_fold_filter (k : Option String) :
    ∀ (cards : List Card) (acc : List (Option String × Card)),
      (∀ p ∈ acc, p.1 = commander_key p.2) →
      ((cards.foldl collapseStep acc).map (fun p => p.2)).filter
          (fun c => decide (commander_key c = k))
      = ((acc.map (fun p => p.2)).filter (fun c => decide (commander_key c = k)))
        ++ (if acc.any (fun p => decide (p.1 = k)) then []
            else ((cards.filter (fun c => is_commander_face c)).filter
                (fun c => decide (commander_key c = k))).take 1) := by
  intro cards
  induction cards with
  | nil =>
    intro acc hacc
    simp
  | cons c cards ih =>
    intro acc hacc
    simp only [List.foldl_cons]
    by_cases hface : is_commander_face c
    · by_cases hmem : acc.any (fun p => decide (p.1 = commander_key c)) = true
      · have hstep : collapseStep acc c = acc := by
          simp [collapseStep, hface, hmem]
        rw [hstep, ih acc hacc]
        by_cases hk : commander_key c = k
        · have hany : acc.any (fun p => decide (p.1 = k)) = true := by
            rw [← hk]; exact hmem
          simp [hany]
        · have hfe : (c :: cards).filter (fun c => is_commander_face c)
              = c :: cards.filter (fun c => is_commander_face c) := by
            simp [List.filter_cons, hface]
          rw [hfe]
          have hke : (c :: cards.filter (fun c => is_commander_face c)).filter
                (fun c => decide (commander_key c = k))
              = (cards.filter (fun c => is_commander_face c)).filter
                (fun c => decide (commander_key c = k)) := by
            simp [List.filter_cons, hk]
          rw [hke]
      · have hstep : collapseStep acc c = acc ++ [(commander_key c, c)] := by
          simp only [collapseStep, hface, if_true]
          rw [if_neg hmem]
        rw [hstep]
        have hacc2 : ∀ p ∈ acc ++ [(commander_key c, c)],
            p.1 = commander_key p.2 := by
          intro p hp
          rcases List.mem_append.mp hp with h | h
          · exact hacc p h
          · simp only [List.mem_singleton] at h
            rw [h]
        rw [ih (acc ++ [(commander_key c, c)]) hacc2]
        have hfe : (c :: cards).filter (fun c => is_commander_face c)
            = c :: cards.filter (fun c => is_commander_face c) := by
          simp [List.filter_cons, hface]
        rw [hfe]
        by_cases hk : commander_key c = k
        · have hacck : acc.any (fun p => decide (p.1 = k)) = false := by
            rw [← hk]
            exact Bool.not_eq_true _ |>.mp hmem
          simp only [List.map_append, List.map_cons, List.map_nil,
            List.filter_append, List.any_append, hacck, Bool.false_or,
            List.filter_cons, List.any_cons, List.any_nil, Bool.or_false,
            hk, decide_eq_true_eq]
          simp only [decide_eq_true_eq] at *
          simp [hk, List.filter_nil]
        · have hkb : decide (commander_key c = k) = false := by
            simpa using hk
          simp only [List.map_append, List.map_cons, List.map_nil,
            List.filter_append, List.any_append, List.filter_cons,
            List.any_cons, List.any_nil, Bool.or_false, hkb,
            Bool.false_eq_true, if_false, List.filter_nil, List.append_nil]
    · have hstep : collapseStep acc c = acc := by
        simp [collapseStep, hface]
      rw [hstep, ih acc hacc]
      have hfe : (c :: cards).filter (fun c => is_commander_face c)
          = cards.filter (fun c => is_commander_face c) := by
        simp [List.filter_cons, hface]
      rw [hfe]

end EdhAntiMeta

namespace EdhAntiMeta

/-! ## Claim theorems -/

/-- C1: the bottom-K selector's heap never holds more than `bottom_k` entries
at any point of the stream (its state after every prefix is bounded), and at
end of stream the retained set has size `min K N`, where `N` is the number of
admitted results. -/
theorem C1_heap_size_bound (args : Args) (rs : List Result) (n : Nat) :
    (runSelector args (rs.take n)).heap.length ≤ args.bottom_k ∧
    (runSelector args rs).heap.length
      = min args.bottom_k (admittedResults args rs).length := by
  constructor
  · rw [heapLen_char]
    exact Nat.min_le_left _ _
  · exact heapLen_char args rs

/-- C2: at end of stream the multiset of retained rank-keys is exactly the
first `bottom_k` of the brute-force ascending sort of all admitted rank-keys
(the heap stores them in ascending order), and this retained list is the same
for every admission order (permutation of the stream). -/
theorem C2_retained_is_bottom_k (args : Args) (rs rsPerm : List Result)
    (h : List.Perm rs rsPerm) :
    heapVals args rs
      = (sortAsc (admittedVals args rs)).take args.bottom_k ∧
    heapVals args rsPerm = heapVals args rs := by
  refine ⟨heapVals_char args rs, ?_⟩
  rw [heapVals_char args rsPerm, heapVals_char args rs]
  have hperm : List.Perm (admittedVals args rsPerm) (admittedVals args rs) := by
    unfold admittedVals admittedResults
    exact (h.symm.filter _).map _
  rw [sortAsc_eq_of_perm hperm]

/-- C2 witness: a two-element stream and its transposition, at `bottom_k = 1`.
-/
theorem C2_retained_is_bottom_k_witness :
    List.Perm [wR1, wR2] [wR2, wR1] ∧
    (heapVals wArgsA [wR1, wR2]
        = (sortAsc (admittedVals wArgsA [wR1, wR2])).take wArgsA.bottom_k ∧
      heapVals wArgsA [wR2, wR1] = heapVals wArgsA [wR1, wR2]) :=
  ⟨List.Perm.swap wR2 wR1 [],
   C2_retained_is_bottom_k wArgsA [wR1, wR2] [wR2, wR1]
     (List.Perm.swap wR2 wR1 [])⟩

/-- C3: a result with no numeric metric is always admitted (the step pushes it
and bumps the sequence number regardless of the only-positive switch), and its
rank value is the `10 ^ 12` sentinel when errored items are excluded from
display, and `0` (the best possible value) when they are included. -/
theorem C3_absent_metric_sentinel (args : Args) (st : SelState) (r : Result)
    (h : r.decks = none) :
    (selectStep args st r).seq = st.seq + 1 ∧
    rankVal args.include_errors r.decks
      = (if args.include_errors then 0 else 10 ^ 12) := by
  constructor
  · simp [selectStep, skipped, h]
  · simp [rankVal, h, big]

/-- C3 witness: the errored sample result at the only-positive
configuration. -/
theorem C3_absent_metric_sentinel_witness :
    wNone.decks = none ∧
    ((selectStep wArgsB ⟨[], 0⟩ wNone).seq = 0 + 1 ∧
      rankVal wArgsB.include_errors wNone.decks
        = (if wArgsB.include_errors then 0 else 10 ^ 12)) :=
  ⟨rfl, C3_absent_metric_sentinel wArgsB ⟨[], 0⟩ wNone rfl⟩

/-- C4 counterexample: the two pool sizes are not independent configuration
values — no configuration yields a metric pool of size 8 together with a
verification pool of size 10, because the verification pool size is computed
from the same single `concurrency` setting. -/
theorem C4_counterexample :
    ¬ ∃ a : Args, metricSemSize a = 8 ∧ verifySemSize a = 10 := by
  rintro ⟨a, h1, h2⟩
  unfold metricSemSize at h1
  unfold verifySemSize filterConcurrencyArg at h2
  rw [h1] at h2
  exact absurd h2 (by decide)

/-- C4 as amended: both stages are gated by bounded pools, but both pool sizes
derive from the single configured `concurrency` value: the metric pool has
size `concurrency` and the verification pool has size
`max(2, concurrency // 2)`. -/
theorem C4_pool_sizes_derived (a : Args) :
    metricSemSize a = a.concurrency ∧
    verifySemSize a = max 2 (Int.fdiv (metricSemSize a) 2) := by
  constructor
  · rfl
  · unfold verifySemSize filterConcurrencyArg metricSemSize
    rcases le_total 2 (Int.fdiv a.concurrency 2) with h | h
    · rw [max_eq_right h, max_eq_right h]
    · rw [max_eq_left h]
      simp

/-- C5: with the only-positive switch on, a result with a definite
non-positive metric is skipped before heap admission (the state is unchanged);
the check does not apply to absent metrics (the step then behaves exactly as
with the switch off); and consequently no result with a definite non-positive
metric is ever in the final heap. -/
theorem C5_only_positive_skip (args : Args) (st : SelState) (r : Result)
    (rs : List Result) (d : Int) :
    (args.only_positive = true → r.decks = some d → d ≤ 0 →
      selectStep args st r = st) ∧
    (r.decks = none →
      selectStep args st r
        = selectStep { args with only_positive := false } st r) ∧
    (args.only_positive = true →
      ∀ e ∈ (runSelector args rs).heap, ∀ d2 : Int,
        e.2.decks = some d2 → 0 < d2) := by
  refine ⟨?_, ?_, ?_⟩
  · intro h1 h2 h3
    have hsk : skipped args.only_positive r.decks = true := by
      simp [skipped, h1, h2, h3]
    simp [selectStep, hsk]
  · intro h
    simp [selectStep, skipped, h]
  · intro hop e he d2 hd2
    rw [runSelector_eq] at he
    have hmem1 : e ∈ sortDesc (streamEntries args 0 rs) :=
      List.mem_of_mem_take he
    have hmem2 : e ∈ streamEntries args 0 rs :=
      (sortDesc_perm _).mem_iff.mp hmem1
    have hsk := mem_streamEntries_not_skipped args rs 0 e hmem2
    simp [skipped, hop, hd2] at hsk
    omega

/-- C5 witness: a zero-metric result is dropped, an absent-metric result is
unaffected by the switch, and the heap of a concrete run holds only positive
metrics. -/
theorem C5_only_positive_skip_witness :
    (wArgsB.only_positive = true ∧ wZero.decks = some 0 ∧ (0 : Int) ≤ 0 ∧
      selectStep wArgsB ⟨[], 0⟩ wZero = ⟨[], 0⟩) ∧
    (wNone.decks = none ∧
      selectStep wArgsB ⟨[], 0⟩ wNone
        = selectStep { wArgsB with only_positive := false } ⟨[], 0⟩ wNone) ∧
    (((-7, 0), wPos) ∈ (runSelector wArgsB wStream).heap ∧ (0 : Int) < 7) :=
  ⟨⟨rfl, rfl, by decide,
    (C5_only_positive_skip wArgsB ⟨[], 0⟩ wZero wStream 0).1 rfl rfl
      (by decide)⟩,
   ⟨rfl, (C5_only_positive_skip wArgsB ⟨[], 0⟩ wNone wStream 0).2.1 rfl⟩,
   ⟨by decide,
    (C5_only_positive_skip wArgsB ⟨[], 0⟩ wZero wStream 0).2.2 rfl
      ((-7, 0), wPos) (by decide) 7 rfl⟩⟩

/-- C6: a transport failure during a metric fetch is folded into the returned
`Result` (name, original route URL, no metric, the error text) — no exception
escapes — while a successful response whose body has no match of the deck
pattern yields a `Result` with no metric and no error annotation. -/
theorem C6_fetch_error_isolation (cmdr : Commander) (msg : String)
    (finalUrl : String) (html : String)
    (hmiss : searchDecks html.data = none) :
    fetch_deck_count cmdr (FetchOutcome.failure msg)
      = { name := cmdr.name, edhrec_url := cmdr.edhrec_route_url,
          decks := none, error := some msg } ∧
    fetch_deck_count cmdr (FetchOutcome.success finalUrl html)
      = { name := cmdr.name, edhrec_url := finalUrl,
          decks := none, error := none } := by
  constructor
  · rfl
  · simp [fetch_deck_count, extract_deck_count, hmiss]

/-- C6 witness: a concrete failure and a concrete body without the pattern. -/
theorem C6_fetch_error_isolation_witness :
    searchDecks (String.data "no count here") = none ∧
    (fetch_deck_count wCmdr (FetchOutcome.failure "timeout")
        = { name := wCmdr.name, edhrec_url := wCmdr.edhrec_route_url,
            decks := none, error := some "timeout" } ∧
      fetch_deck_count wCmdr (FetchOutcome.success "final" "no count here")
        = { name := wCmdr.name, edhrec_url := "final",
            decks := none, error := none }) :=
  ⟨by decide,
   C6_fetch_error_isolation wCmdr "timeout" "final" "no count here"
     (by decide)⟩

/-- Any prefix of benign pages followed by a raised fetch makes the strict
page walk fall back to the fast heuristic. -/
theorem strictPages_fallback (card : Card) (msg : String)
    (rest : List PageStep) :
    ∀ pre : List PageStep, (∀ s ∈ pre, benignPage s = true) →
      strictPages card (pre ++ PageStep.err msg :: rest)
        = some (looks_like_ptk_fast card) := by
  intro pre
  induction pre with
  | nil => intro _; simp [strictPages]
  | cons s pre ih =>
    intro hpre
    have hs := hpre s (List.mem_cons_self s pre)
    cases s with
    | err m => simp [benignPage] at hs
    | page cs next =>
      simp only [benignPage, Bool.and_eq_true, Bool.not_eq_true'] at hs
      obtain ⟨hnone, hnext⟩ := hs
      rcases Option.isSome_iff_exists.mp hnext with ⟨nu, hnu⟩
      simp only [List.cons_append, strictPages, hnone, Bool.false_eq_true,
        if_false, hnu]
      exact ih (fun t ht => hpre t (List.mem_cons_of_mem _ ht))

/-- C7: when strict PTK verification has a printings URL to walk and any of
its page fetches raises, `is_ptk_strict` returns the cheap heuristic's verdict
for that card instead of propagating the failure (the function is total over
all traces, so the exception never escapes the per-item verification). -/
theorem C7_strict_fallback_on_error (card : Card) (pre : List PageStep)
    (msg : String) (rest : List PageStep)
    (huri : card.prints_search_uri.isSome = true)
    (hpre : ∀ s ∈ pre, benignPage s = true) :
    is_ptk_strict card (pre ++ PageStep.err msg :: rest)
      = some (looks_like_ptk_fast card) := by
  rcases Option.isSome_iff_exists.mp huri with ⟨u, hu⟩
  simp only [is_ptk_strict, hu]
  exact strictPages_fallback card msg rest pre hpre

/-- C7 witness: one benign page, then a raised fetch. -/
theorem C7_strict_fallback_on_error_witness :
    wCardStrict.prints_search_uri.isSome = true ∧
    benignPage wPage = true ∧
    is_ptk_strict wCardStrict [wPage, PageStep.err "timeout"]
      = some (looks_like_ptk_fast wCardStrict) :=
  ⟨by decide, by decide,
   C7_strict_fallback_on_error wCardStrict [wPage] "timeout" []
     (by decide) (by decide)⟩

/-- C8: the deduplicated pool restricted to any canonical key equals the first
input entry (among those passing the commander-face shape check) bearing that
key — so there is exactly one entry per distinct key, the first seen wins, and
entries failing the shape check never occupy the pool. -/
theorem C8_dedup_first_wins (cards : List Card) (k : Option String) :
    (collapse_by_oracle cards).filter (fun c => decide (commander_key c = k))
      = ((cards.filter (fun c => is_commander_face c)).filter
          (fun c => decide (commander_key c = k))).take 1 ∧
    ∀ c ∈ collapse_by_oracle cards, is_commander_face c = true := by
  constructor
  · have h := collapse_fold_filter k cards [] (by simp)
    simpa [collapse_by_oracle] using h
  · intro c hc
    unfold collapse_by_oracle at hc
    rcases List.mem_map.mp hc with ⟨p, hp, hpc⟩
    rw [← hpc]
    exact collapse_fold_faces cards [] (by simp) p hp

/-- C8 witness: a concrete catalog with a repeated key and a non-face entry;
the pool keeps only the first face entry for the key. -/
theorem C8_dedup_first_wins_witness :
    ((collapse_by_oracle wCatalog).filter
        (fun c => decide (commander_key c = some "o1"))
      = ((wCatalog.filter (fun c => is_commander_face c)).filter
          (fun c => decide (commander_key c = some "o1"))).take 1) ∧
    (wFace ∈ collapse_by_oracle wCatalog ∧
      is_commander_face wFace = true) :=
  ⟨(C8_dedup_first_wins wCatalog (some "o1")).1,
   ⟨by decide,
    (C8_dedup_first_wins wCatalog (some "o1")).2 wFace (by decide)⟩⟩

/-- C9: a recency window of zero disables the recency rule — the predicate is
false for every card, whatever its release date. -/
theorem C9_zero_window_disables (card : Card) (today : Int) :
    is_recent card 0 today = false := by
  simp [is_recent]

/-- C10: with a positive window, a card whose release date is missing, or
whose release-date string does not parse, is never marked recent (the
predicate returns false instead of raising or excluding). -/
theorem C10_missing_or_bad_date_not_recent (card : Card) (days today : Int)
    (hd : 0 < days) :
    (card.released_at = none → is_recent card days today = false) ∧
    (∀ ra, card.released_at = some ra → strptimeYMD ra = none →
      is_recent card days today = false) := by
  have hnd : ¬ days ≤ 0 := by omega
  constructor
  · intro h
    simp [is_recent, hnd, h]
  · intro ra h hra
    simp only [is_recent, hnd, if_false, h]
    split
    · rfl
    · rw [hra]

/-- C10 witness: a card with no date and a card with an unparseable date, at a
30-day window. -/
theorem C10_missing_or_bad_date_not_recent_witness :
    (0 : Int) < 30 ∧
    (wCardNoDate.released_at = none ∧
      is_recent wCardNoDate 30 700000 = false) ∧
    (wCardBadDate.released_at = some "notadate" ∧
      strptimeYMD "notadate" = none ∧
      is_recent wCardBadDate 30 700000 = false) :=
  ⟨by decide,
   ⟨rfl,
    (C10_missing_or_bad_date_not_recent wCardNoDate 30 700000 (by decide)).1
      rfl⟩,
   ⟨rfl, by decide,
    (C10_missing_or_bad_date_not_recent wCardBadDate 30 700000 (by decide)).2
      "notadate" rfl (by decide)⟩⟩

end EdhAntiMeta
